import Mathlib

/-!
Verification of the TTS text-preparation core of the All-About-MCP repository:
the chunker `chunk_text` from `src/audiobook.py` and the markdown normalizer
`markdown_to_text` from `scripts/generate_audiobook.py`, embedded shallowly as
executable functions over `List Char` / `String`.
-/

set_option autoImplicit false
set_option maxRecDepth 100000

namespace MCP

/-- Python `str.strip()` whitespace set restricted to the ASCII whitespace
characters (space, tab, newline, carriage return, vertical tab, form feed),
which is what `\s` and `.strip()` act on for this repository's markdown text. -/
def isPySpace (c : Char) : Bool :=
  c = ' ' || c = '\t' || c = '\n' || c = '\r' || c = Char.ofNat 11 || c = Char.ofNat 12

/-- Python `str.strip()`: drop leading and trailing whitespace. -/
def pstrip (l : List Char) : List Char :=
  ((l.dropWhile isPySpace).reverse.dropWhile isPySpace).reverse

/-- Does the second list start with the first list? -/
def beginsWith : List Char → List Char → Bool
  | [], _ => true
  | _ :: _, [] => false
  | a :: as, b :: bs => a = b && beginsWith as bs

/-- Index of the first occurrence of `needle` in the list, if any. -/
def findSub (needle : List Char) : List Char → Option Nat
  | [] => if needle.isEmpty then some 0 else none
  | c :: rest =>
    if beginsWith needle (c :: rest) then some 0
    else (findSub needle rest).map (· + 1)

/-- Whether `needle` occurs as a contiguous sublist. -/
def containsSub (needle l : List Char) : Bool :=
  (findSub needle l).isSome

/-- Python `text.split('\n\n')`: split on each non-overlapping, leftmost
occurrence of two consecutive newline characters. -/
def paraSplit : List Char → List (List Char)
  | [] => [[]]
  | [c] => [[c]]
  | c :: d :: rest =>
    if c = '\n' && d = '\n' then [] :: paraSplit rest
    else
      match paraSplit (d :: rest) with
      | p :: ps => (c :: p) :: ps
      | [] => [[c]]

/-- Join pieces with a fixed separator (Python `sep.join(pieces)`). -/
def joinSep (sep : List Char) : List (List Char) → List Char
  | [] => []
  | p :: ps =>
    match ps with
    | [] => p
    | _ :: _ => p ++ sep ++ joinSep sep ps

/-- Sentence terminators of the regex `(?<=[.!?])\s+`. -/
def isTerm (c : Char) : Bool :=
  c = '.' || c = '!' || c = '?'

/-- Prepend a character onto the first piece of a piece list. -/
def consHead (c : Char) : List (List Char) → List (List Char)
  | [] => [[c]]
  | p :: ps => (c :: p) :: ps

/-- State of the sentence-splitting scan: either inside a piece (recording
whether the previous character was a sentence terminator), or inside a
whitespace separator run. -/
inductive SentState where
  | piece : Bool → SentState
  | gap : SentState

/-- Scanner implementing Python `re.split(r'(?<=[.!?])\s+', text)`: a split
occurs at each maximal whitespace run immediately preceded by `.`, `!` or `?`;
the whitespace run is consumed as the separator. -/
def sentGo : SentState → List Char → List (List Char)
  | SentState.gap, [] => [[]]
  | SentState.piece _, [] => [[]]
  | SentState.gap, c :: rest =>
    if isPySpace c then sentGo SentState.gap rest
    else consHead c (sentGo (SentState.piece (isTerm c)) rest)
  | SentState.piece after, c :: rest =>
    if after && isPySpace c then [] :: sentGo SentState.gap rest
    else consHead c (sentGo (SentState.piece (isTerm c)) rest)

/-- Python `re.split(r'(?<=[.!?])\s+', text)`. -/
def sentSplit (l : List Char) : List (List Char) :=
  sentGo (SentState.piece false) l

/-- The inner sentence loop of `chunk_text` (`src/audiobook.py`): greedily pack
sentences into the running buffer, flushing the stripped buffer as a chunk when
the next sentence does not fit. State is `(chunks, current_chunk)`. -/
def addSentences (ml : Int) : List (List Char) × List Char → List (List Char) → List (List Char) × List Char
  | st, [] => st
  | (chunks, cc), s :: ss =>
    if (cc.length : Int) + (s.length : Int) + 1 ≤ ml then
      addSentences ml (chunks, if cc.isEmpty then s else cc ++ ' ' :: s) ss
    else
      addSentences ml ((if cc.isEmpty then chunks else chunks ++ [pstrip cc]), s) ss

/-- The paragraph loop of `chunk_text` (`src/audiobook.py`): skip blank
paragraphs, fall back to sentence packing for paragraphs longer than
`max_length`, otherwise greedily pack paragraphs joined by `"\n\n"`. -/
def chunkParas (ml : Int) : List (List Char) × List Char → List (List Char) → List (List Char) × List Char
  | st, [] => st
  | (chunks, cc), p :: ps =>
    let para := pstrip p
    if para.isEmpty then chunkParas ml (chunks, cc) ps
    else if ml < (para.length : Int) then
      chunkParas ml (addSentences ml (chunks, cc) (sentSplit para)) ps
    else if (cc.length : Int) + (para.length : Int) + 2 ≤ ml then
      chunkParas ml (chunks, if cc.isEmpty then para else cc ++ '\n' :: '\n' :: para) ps
    else
      chunkParas ml ((if cc.isEmpty then chunks else chunks ++ [pstrip cc]), para) ps

/-- Final flush of `chunk_text`: append the stripped trailing buffer if it is
non-empty. -/
def assembleChunks (st : List (List Char) × List Char) : List (List Char) :=
  if st.2.isEmpty then st.1 else st.1 ++ [pstrip st.2]

/-- `chunk_text(text, max_length)` from `src/audiobook.py`: split text into
chunks along paragraph boundaries, falling back to sentence boundaries for
oversized paragraphs. -/
def chunk_text (text : String) (ml : Int := 2000) : List String :=
  (assembleChunks (chunkParas ml ([], []) (paraSplit text.data))).map
    (fun l => String.mk l)

/-! ### Markdown normalizer (`markdown_to_text` in `scripts/generate_audiobook.py`)

Each `re.sub` pass is embedded as a left-to-right, non-overlapping scanner
`runSub` driven by a matcher that, given the previous character of the pass
input (for `^` and `\b` context) and the current suffix, reports the length of
the match starting here and its replacement. -/

/-- One `re.sub`-style pass: scan left to right, replacing each non-overlapping
match reported by the matcher `m`; the `Option Char` argument is the character
preceding the current position in the pass input. Fuel bounds the recursion. -/
def scanSub (m : Option Char → List Char → Option (Nat × List Char)) :
    Nat → Option Char → List Char → List Char
  | 0, _, l => l
  | _ + 1, _, [] => []
  | fuel + 1, prev, c :: rest =>
    match m prev (c :: rest) with
    | some (n, repl) =>
      if n = 0 then c :: scanSub m fuel (some c) rest
      else repl ++ scanSub m fuel (((c :: rest).take n).getLast?) ((c :: rest).drop n)
    | none => c :: scanSub m fuel (some c) rest

/-- Run a substitution pass over a whole list. -/
def runSub (m : Option Char → List Char → Option (Nat × List Char)) (l : List Char) : List Char :=
  scanSub m (l.length + 1) none l

/-- Whether the current position is at the start of a line (`^` with
`re.MULTILINE`): start of text or just after a newline. -/
def atLineStart (prev : Option Char) : Bool :=
  match prev with
  | none => true
  | some c => c = '\n'

/-- ASCII letter, for the `[a-zA-Z]` character class. -/
def isAsciiLetter (c : Char) : Bool :=
  ('a' ≤ c && c ≤ 'z') || ('A' ≤ c && c ≤ 'Z')

/-- Word character for `\w` and `\b` (alphanumeric or underscore). -/
def isWordChar (c : Char) : Bool :=
  c.isAlphanum || c = '_'

/-- The backtick character. -/
def btick : Char := Char.ofNat 96

/-- Stage 1: `re.sub(r'^---\n.*?\n---\n', '', text, flags=re.DOTALL)` — remove
a YAML front-matter block anchored at the start of the text (non-greedy, so the
earliest closing `\n---\n` wins; `^` without MULTILINE can match only once). -/
def stripFrontmatter (l : List Char) : List Char :=
  if beginsWith "---\n".data l then
    match findSub "\n---\n".data (l.drop 4) with
    | some i => l.drop (4 + i + 5)
    | none => l
  else l

/-- Matcher for a literal string (used for `str.replace` and literal `re.sub`). -/
def litMatcher (key repl : List Char) (_ : Option Char) (s : List Char) :
    Option (Nat × List Char) :=
  if key.isEmpty then none
  else if beginsWith key s then some (key.length, repl) else none

/-- Global literal replacement (Python `str.replace` / literal `re.sub`). -/
def replaceLit (key repl : List Char) (l : List Char) : List Char :=
  runSub (litMatcher key repl) l

/-- Matcher for `\\[a-zA-Z]+\{[^}]*\}` (LaTeX command with one brace argument),
removed entirely. -/
def latexArgMatcher (_ : Option Char) (s : List Char) : Option (Nat × List Char) :=
  match s with
  | '\\' :: rest =>
    let letters := rest.takeWhile isAsciiLetter
    if letters.isEmpty then none
    else
      match rest.drop letters.length with
      | '{' :: rest2 =>
        let body := rest2.takeWhile (fun c => c ≠ '}')
        match rest2.drop body.length with
        | '}' :: _ => some (1 + letters.length + 1 + body.length + 1, [])
        | _ => none
      | _ => none
  | _ => none

/-- Matcher for `\\[a-zA-Z]+` (bare LaTeX command), removed entirely. -/
def latexCmdMatcher (_ : Option Char) (s : List Char) : Option (Nat × List Char) :=
  match s with
  | '\\' :: rest =>
    let letters := rest.takeWhile isAsciiLetter
    if letters.isEmpty then none else some (1 + letters.length, [])
  | _ => none

/-- Matcher for `!\[.*?\]\(.*?\)` (image reference, `.` does not cross
newlines), removed entirely: the non-greedy parts take the earliest `](` and
the earliest following `)` on the same line. -/
def imageMatcher (_ : Option Char) (s : List Char) : Option (Nat × List Char) :=
  match s with
  | '!' :: '[' :: rest =>
    let line := rest.takeWhile (fun c => c ≠ '\n')
    match findSub "](".data line with
    | some i =>
      let afterBr := line.drop (i + 2)
      let y := afterBr.takeWhile (fun c => c ≠ ')')
      match afterBr.drop y.length with
      | ')' :: _ => some (2 + i + 2 + y.length + 1, [])
      | _ => none
    | none => none
  | _ => none

/-- Lookahead `(?=\n\n|\n#|$)` of the figure-caption pattern (`$` without
MULTILINE: end of text or just before a final newline). -/
def figStop (r : List Char) : Bool :=
  r.isEmpty || r = ['\n'] || beginsWith "\n\n".data r || beginsWith "\n#".data r

/-- Smallest index `i` such that `stop` holds on the suffix starting at `i`. -/
def findStop (stop : List Char → Bool) : List Char → Option Nat
  | [] => if stop [] then some 0 else none
  | c :: r =>
    if stop (c :: r) then some 0
    else (findStop stop r).map (· + 1)

/-- Matcher for `\*\*Figure \d+\.\d+:\*\*.*?(?=\n\n|\n#|$)` with DOTALL
(figure caption block), removed entirely. -/
def figMatcher (_ : Option Char) (s : List Char) : Option (Nat × List Char) :=
  if beginsWith "**Figure ".data s then
    let rest := s.drop 9
    let d1 := rest.takeWhile Char.isDigit
    if d1.isEmpty then none
    else
      match rest.drop d1.length with
      | '.' :: rest2 =>
        let d2 := rest2.takeWhile Char.isDigit
        if d2.isEmpty then none
        else
          match rest2.drop d2.length with
          | ':' :: '*' :: '*' :: rest3 =>
            match findStop figStop rest3 with
            | some i => some (9 + d1.length + 1 + d2.length + 3 + i, [])
            | none => none
          | _ => none
      | _ => none
  else none

/-- Matcher for `\[([^\]]+)\]\([^)]+\)` (markdown link), replaced by the link
text. -/
def linkMatcher (_ : Option Char) (s : List Char) : Option (Nat × List Char) :=
  match s with
  | '[' :: rest =>
    let x := rest.takeWhile (fun c => c ≠ ']')
    if x.isEmpty then none
    else
      match rest.drop x.length with
      | ']' :: '(' :: rest2 =>
        let y := rest2.takeWhile (fun c => c ≠ ')')
        if y.isEmpty then none
        else
          match rest2.drop y.length with
          | ')' :: _ => some (1 + x.length + 2 + y.length + 1, x)
          | _ => none
      | _ => none
  | _ => none

/-- Matcher for the fenced code-block pattern with DOTALL and the replacement
function naming the language (or "code" when unspecified). -/
def codeBlockMatcher (_ : Option Char) (s : List Char) : Option (Nat × List Char) :=
  if beginsWith [btick, btick, btick] s then
    let rest := s.drop 3
    let lang := rest.takeWhile isWordChar
    match rest.drop lang.length with
    | '\n' :: rest2 =>
      match findSub [btick, btick, btick] rest2 with
      | some i =>
        let langName := if lang.isEmpty then "code".data else lang
        some (3 + lang.length + 1 + i + 3,
          '[' :: (langName ++ " code example omitted for audio]".data))
      | none => none
    | _ => none
  else none

/-- Matcher for inline code spans, replaced by the bare span text. -/
def inlineCodeMatcher (_ : Option Char) (s : List Char) : Option (Nat × List Char) :=
  match s with
  | c :: rest =>
    if c = btick then
      let x := rest.takeWhile (fun d => d ≠ btick)
      if x.isEmpty then none
      else
        match rest.drop x.length with
        | d :: _ => if d = btick then some (1 + x.length + 1, x) else none
        | _ => none
    else none
  | _ => none

/-- The heading replacement `'\n\n' + title.strip() + '.\n\n'`. -/
def headingRepl (title : List Char) : List Char :=
  "\n\n".data ++ pstrip title ++ ".\n\n".data

/-- Backtracking step of `\s+(.+)$` when the whitespace run reaches the end of
the text: the greedy `\s+` gives back characters until `(.+)` can match at
least one non-newline character; the largest viable split wins. -/
def headingBk (w : List Char) : Nat → Option (Nat × List Char)
  | 0 => none
  | k + 1 =>
    match w.drop (k + 1) with
    | c :: _ =>
      if c ≠ '\n' then
        let title := (w.drop (k + 1)).takeWhile (fun d => d ≠ '\n')
        some ((k + 1) + title.length, title)
      else headingBk w k
    | [] => headingBk w k

/-- Match `\s+(.+)$` after the hash marks of a heading: consume the maximal
whitespace run (which may cross newlines), then the rest of that line as the
title; when the whitespace run reaches the end of the text, backtrack into the
run. Returns (consumed length, title group). -/
def headingTail (s : List Char) : Option (Nat × List Char) :=
  let w := s.takeWhile isPySpace
  if w.isEmpty then none
  else
    let after := s.drop w.length
    if after.isEmpty then headingBk w (w.length - 1)
    else
      let title := after.takeWhile (fun c => c ≠ '\n')
      some (w.length + title.length, title)

/-- Matcher for `^#\s+(.+)$` (h1 heading) with MULTILINE. -/
def h1Matcher (prev : Option Char) (s : List Char) : Option (Nat × List Char) :=
  if atLineStart prev then
    match s with
    | '#' :: rest =>
      match headingTail rest with
      | some (n, title) => some (1 + n, headingRepl title)
      | none => none
    | _ => none
  else none

/-- Matcher for `^##\s+(.+)$` (h2 heading) with MULTILINE. -/
def h2Matcher (prev : Option Char) (s : List Char) : Option (Nat × List Char) :=
  if atLineStart prev then
    match s with
    | '#' :: '#' :: rest =>
      match headingTail rest with
      | some (n, title) => some (2 + n, headingRepl title)
      | none => none
    | _ => none
  else none

/-- Matcher for `^#{3,6}\s+(.+)$` (h3–h6 headings) with MULTILINE. -/
def h3Matcher (prev : Option Char) (s : List Char) : Option (Nat × List Char) :=
  if atLineStart prev then
    let hashes := s.takeWhile (fun c => c = '#')
    if 3 ≤ hashes.length && hashes.length ≤ 6 then
      match headingTail (s.drop hashes.length) with
      | some (n, title) => some (hashes.length + n, headingRepl title)
      | none => none
    else none
  else none

/-- Matcher for emphasis patterns `marker([^inner]+)marker` (e.g. `\*\*([^*]+)\*\*`),
replaced by the inner group. -/
def delimMatcher (marker : List Char) (inner : Char) (_ : Option Char) (s : List Char) :
    Option (Nat × List Char) :=
  if beginsWith marker s then
    let rest := s.drop marker.length
    let x := rest.takeWhile (fun c => c ≠ inner)
    if x.isEmpty then none
    else if beginsWith marker (rest.drop x.length) then
      some (marker.length + x.length + marker.length, x)
    else none
  else none

/-- Matcher for `^\s*[-*]\s+` with MULTILINE (bullet list marker), removed;
note `\s` may cross newlines. -/
def bulletMatcher (prev : Option Char) (s : List Char) : Option (Nat × List Char) :=
  if atLineStart prev then
    let w0 := s.takeWhile isPySpace
    match s.drop w0.length with
    | c :: rest2 =>
      if c = '-' || c = '*' then
        let w1 := rest2.takeWhile isPySpace
        if w1.isEmpty then none
        else some (w0.length + 1 + w1.length, [])
      else none
    | [] => none
  else none

/-- Matcher for `^\s*\d+\.\s+` with MULTILINE (numbered list marker), removed. -/
def numberedMatcher (prev : Option Char) (s : List Char) : Option (Nat × List Char) :=
  if atLineStart prev then
    let w0 := s.takeWhile isPySpace
    let rest2 := s.drop w0.length
    let d := rest2.takeWhile Char.isDigit
    if d.isEmpty then none
    else
      match rest2.drop d.length with
      | '.' :: rest3 =>
        let w1 := rest3.takeWhile isPySpace
        if w1.isEmpty then none
        else some (w0.length + d.length + 1 + w1.length, [])
      | _ => none
  else none

/-- Word-ness of an optional neighbouring character (`\b` treats the text edge
as a non-word position). -/
def wordAt (oc : Option Char) : Bool :=
  match oc with
  | none => false
  | some c => isWordChar c

/-- Matcher for `rf'\b{re.escape(abbr)}\b'`: the literal key must occur with a
word/non-word boundary on each side. -/
def bMatcher (key repl : List Char) (prev : Option Char) (s : List Char) :
    Option (Nat × List Char) :=
  match key.head?, key.getLast? with
  | some kh, some kl =>
    if beginsWith key s
        && (wordAt prev != isWordChar kh)
        && (wordAt ((s.drop key.length).head?) != isWordChar kl) then
      some (key.length, repl)
    else none
  | _, _ => none

/-- The abbreviation table of `markdown_to_text`, in source (insertion) order. -/
def abbrevTable : List (String × String) :=
  [("e.g.", "for example"), ("i.e.", "that is"), ("etc.", "and so on"), ("vs.", "versus"),
   ("API", "A P I"), ("APIs", "A P Is"), ("JSON", "Jason"), ("JSON-RPC", "Jason R P C"),
   ("STDIO", "standard I O"), ("stdio", "standard I O"), ("SSE", "S S E"),
   ("HTTP", "H T T P"), ("HTTPS", "H T T P S"), ("URL", "U R L"), ("URLs", "U R Ls"),
   ("URI", "U R I"), ("LLM", "L L M"), ("LLMs", "L L Ms"), ("AI", "A I"),
   ("IDE", "I D E"), ("IDEs", "I D Es"), ("SDK", "S D K"), ("SDKs", "S D Ks"),
   ("CLI", "C L I"), ("MCP", "M C P"), ("REST", "rest"), ("GraphQL", "Graph Q L"),
   ("OAuth", "O Auth"), ("RAG", "rag"), ("NPM", "N P M"), ("npm", "N P M"),
   ("UUID", "U U I D")]

/-- The abbreviation-expansion stage: one word-boundary substitution pass per
table entry, applied in table order. -/
def expandAbbrevList (l : List Char) : List Char :=
  abbrevTable.foldl (fun t kv => runSub (bMatcher kv.1.data kv.2.data) t) l

/-- The abbreviation-expansion stage on strings. -/
def expandAbbreviations (s : String) : String :=
  String.mk (expandAbbrevList s.data)

/-- Matcher for `^---+$` with MULTILINE (horizontal rule), replaced by a
newline. -/
def hrMatcher (prev : Option Char) (s : List Char) : Option (Nat × List Char) :=
  if atLineStart prev then
    let d := s.takeWhile (fun c => c = '-')
    if 3 ≤ d.length then
      match s.drop d.length with
      | [] => some (d.length, ['\n'])
      | '\n' :: _ => some (d.length, ['\n'])
      | _ => none
    else none
  else none

/-- Matcher for `\n{3,}`, collapsed to a blank line. -/
def nlRunMatcher (_ : Option Char) (s : List Char) : Option (Nat × List Char) :=
  let r := s.takeWhile (fun c => c = '\n')
  if 3 ≤ r.length then some (r.length, "\n\n".data) else none

/-- Matcher for `' {2,}'`, collapsed to one space. -/
def spaceRunMatcher (_ : Option Char) (s : List Char) : Option (Nat × List Char) :=
  let r := s.takeWhile (fun c => c = ' ')
  if 2 ≤ r.length then some (r.length, [' ']) else none

/-- Python `text.split('\n')`. -/
def splitNl : List Char → List (List Char)
  | [] => [[]]
  | c :: rest =>
    if c = '\n' then [] :: splitNl rest
    else
      match splitNl rest with
      | p :: ps => (c :: p) :: ps
      | [] => [[c]]

/-- Python `'\n'.join(...)`. -/
def joinNl (ps : List (List Char)) : List Char :=
  joinSep ['\n'] ps

/-- The per-line strip pass `'\n'.join(line.strip() for line in text.split('\n'))`. -/
def stripLines (l : List Char) : List Char :=
  joinNl ((splitNl l).map pstrip)

/-- `markdown_to_text` from `scripts/generate_audiobook.py`: the full
normalizer pipeline, each `re.sub`/`str.replace` pass in source order. -/
def markdown_to_text (s : String) : String :=
  let t0 := stripFrontmatter s.data
  let t1 := replaceLit "\\newpage".data [] t0
  let t2 := runSub latexArgMatcher t1
  let t3 := runSub latexCmdMatcher t2
  let t4 := runSub imageMatcher t3
  let t5 := runSub figMatcher t4
  let t6 := runSub linkMatcher t5
  let t7 := runSub codeBlockMatcher t6
  let t8 := runSub inlineCodeMatcher t7
  let t9 := runSub h1Matcher t8
  let t10 := runSub h2Matcher t9
  let t11 := runSub h3Matcher t10
  let t12 := runSub (delimMatcher "***".data '*') t11
  let t13 := runSub (delimMatcher "**".data '*') t12
  let t14 := runSub (delimMatcher "*".data '*') t13
  let t15 := runSub (delimMatcher "_".data '_') t14
  let t16 := runSub bulletMatcher t15
  let t17 := runSub numberedMatcher t16
  let t18 := expandAbbrevList t17
  let t19 := replaceLit ['→'] " to ".data t18
  let t20 := replaceLit ['←'] " from ".data t19
  let t21 := replaceLit ['×'] " times ".data t20
  let t22 := replaceLit ['&'] " and ".data t21
  let t23 := replaceLit ['%'] " percent".data t22
  let t24 := runSub hrMatcher t23
  let t25 := runSub nlRunMatcher t24
  let t26 := runSub spaceRunMatcher t25
  let t27 := stripLines t26
  String.mk (pstrip t27)

/-! ### Whitespace-canonical word decomposition

`words` decomposes a text into its maximal non-whitespace runs.  Two texts
have the same `words` exactly when they agree up to whitespace normalization
(collapsed/retyped whitespace runs and stripped edges), which is the sense in
which the chunker is lossless. -/

/-- Word-scanner state machine: the flag records whether the previous character
was part of a word. -/
def wgo : Bool → List Char → List (List Char)
  | true, [] => [[]]
  | false, [] => []
  | true, c :: rest =>
    if isPySpace c then [] :: wgo false rest else consHead c (wgo true rest)
  | false, c :: rest =>
    if isPySpace c then wgo false rest else consHead c (wgo true rest)

/-- The maximal non-whitespace runs of a text, in order. -/
def words (l : List Char) : List (List Char) :=
  wgo false l

/-- The sentence-per-chunk decomposition that `chunk_text` degenerates to when
`max_length ≤ 0`: every sentence of every non-blank paragraph becomes its own
(stripped) chunk. -/
def sentenceChunks (text : String) : List String :=
  ((((paraSplit text.data).map pstrip).filter (fun p => !p.isEmpty)).map
    (fun para => (sentSplit para).map (fun s => String.mk (pstrip s)))).flatten

/-! ### Model of the per-chunk synthesis loop of `generate_audiobook`

In `generate_audiobook` (`src/audiobook.py`), each chunk is synthesized and
downloaded inside a `try`/`except` that logs and `continue`s on failure, and
after the loop a `RuntimeError` is raised when no chunk succeeded.  The
external synthesis+download call is abstracted as a function from the chunk
index and text to `Option α` (`none` = the call raised). -/

/-- The `for i, chunk in enumerate(chunks)` loop: failed chunks are skipped,
successful results are collected in order. -/
def synthLoop {α : Type} (synth : Nat → String → Option α) : Nat → List String → List α
  | _, [] => []
  | i, c :: cs =>
    match synth i c with
    | some a => a :: synthLoop synth (i + 1) cs
    | none => synthLoop synth (i + 1) cs

/-- The synthesis phase of `generate_audiobook`: run the per-chunk loop, then
raise `RuntimeError("No audio chunks were generated successfully")` when no
audio file was produced; otherwise hand the collected files (in order) on to
concatenation. -/
def generate_audiobook_model {α : Type} (synth : Nat → String → Option α)
    (chunks : List String) : Except String (List α) :=
  let files := synthLoop synth 0 chunks
  if files.isEmpty then Except.error "No audio chunks were generated successfully"
  else Except.ok files

/-- Whether the first character of a list is whitespace (`false` for `[]`). -/
def headWs (l : List Char) : Bool :=
  match l.head? with
  | none => false
  | some c => isPySpace c

/-- Whether the last character of a list is whitespace (`false` for `[]`). -/
def lastWs (l : List Char) : Bool :=
  match l.getLast? with
  | none => false
  | some c => isPySpace c

/-- `s` is one of the sentences that `chunk_text` obtains by sentence-splitting
a non-blank (stripped) paragraph of `text`. -/
def IsSentOf (text s : List Char) : Prop :=
  ∃ p ∈ paraSplit text, pstrip p ≠ [] ∧ s ∈ sentSplit (pstrip p)


/-! ### Lemmas: words machinery -/

theorem consHead_ne_nil (c : Char) (R : List (List Char)) : consHead c R ≠ [] := by
  cases R <;> simp [consHead]

theorem consHead_append (c : Char) (X Y : List (List Char)) (h : X ≠ []) :
    consHead c (X ++ Y) = consHead c X ++ Y := by
  cases X with
  | nil => exact absurd rfl h
  | cons p ps => simp [consHead]

theorem wgo_true_ne_nil (l : List Char) : wgo true l ≠ [] := by
  cases l with
  | nil => simp [wgo]
  | cons c rest =>
    by_cases h : isPySpace c = true
    · simp [wgo, h]
    · simp [wgo, h, consHead_ne_nil]

theorem wgo_ws_nil (l : List Char) (h : ∀ c ∈ l, isPySpace c = true) :
    wgo false l = [] ∧ wgo true l = [[]] := by
  induction l with
  | nil => simp [wgo]
  | cons c rest ih =>
    have hc : isPySpace c = true := h c (by simp)
    have ih' := ih (fun d hd => h d (by simp [hd]))
    exact ⟨by simp [wgo, hc, ih'.1], by simp [wgo, hc, ih'.1]⟩

theorem wgo_append_ws (sep : List Char) (hsep : ∀ c ∈ sep, isPySpace c = true) :
    ∀ (a : List Char) (st : Bool), wgo st (a ++ sep) = wgo st a := by
  intro a
  induction a with
  | nil =>
    intro st
    cases st
    · simpa [wgo] using (wgo_ws_nil sep hsep).1
    · simpa [wgo] using (wgo_ws_nil sep hsep).2
  | cons c rest ih =>
    intro st
    by_cases hc : isPySpace c = true <;> cases st <;> simp [wgo, hc, ih]

theorem wgo_false_ws_append (sep : List Char) (hsep : ∀ c ∈ sep, isPySpace c = true)
    (b : List Char) : wgo false (sep ++ b) = wgo false b := by
  induction sep with
  | nil => simp
  | cons c rest ih =>
    have hc : isPySpace c = true := hsep c (by simp)
    simp [wgo, hc, ih (fun d hd => hsep d (by simp [hd]))]

theorem wgo_append_sep (sep : List Char) (hne : sep ≠ [])
    (hsep : ∀ c ∈ sep, isPySpace c = true) :
    ∀ (a b : List Char) (st : Bool), wgo st (a ++ (sep ++ b)) = wgo st a ++ wgo false b := by
  intro a
  induction a with
  | nil =>
    intro b st
    cases st
    · simpa [wgo] using wgo_false_ws_append sep hsep b
    · cases sep with
      | nil => exact absurd rfl hne
      | cons d sep' =>
        have hd : isPySpace d = true := hsep d (by simp)
        simp [wgo, hd, wgo_false_ws_append sep' (fun c hc => hsep c (by simp [hc])) b]
  | cons c rest ih =>
    intro b st
    by_cases hc : isPySpace c = true
    · cases st <;> simp [wgo, hc, ih]
    · have hne' := wgo_true_ne_nil rest
      cases st <;>
        simp [wgo, hc, ih, ← consHead_append _ _ _ hne']

theorem words_append_sep (sep : List Char) (hne : sep ≠ [])
    (hsep : ∀ c ∈ sep, isPySpace c = true) (a b : List Char) :
    words (a ++ (sep ++ b)) = words a ++ words b :=
  wgo_append_sep sep hne hsep a b false

theorem words_cons_ws (c : Char) (hc : isPySpace c = true) (l : List Char) :
    words (c :: l) = words l := by
  simp [words, wgo, hc]

/-! ### Lemmas: pstrip -/

theorem length_dropWhile_le (p : Char → Bool) (l : List Char) :
    (l.dropWhile p).length ≤ l.length := by
  induction l with
  | nil => simp
  | cons c rest ih =>
    by_cases h : p c = true
    · rw [List.dropWhile_cons, if_pos h]
      exact Nat.le_succ_of_le ih
    · rw [List.dropWhile_cons, if_neg h]

theorem pstrip_length_le (l : List Char) : (pstrip l).length ≤ l.length := by
  unfold pstrip
  calc ((l.dropWhile isPySpace).reverse.dropWhile isPySpace).reverse.length
      = ((l.dropWhile isPySpace).reverse.dropWhile isPySpace).length := List.length_reverse _
    _ ≤ (l.dropWhile isPySpace).reverse.length := length_dropWhile_le _ _
    _ = (l.dropWhile isPySpace).length := List.length_reverse _
    _ ≤ l.length := length_dropWhile_le _ _

theorem headWs_nil : headWs [] = false := rfl

theorem lastWs_nil : lastWs [] = false := rfl

theorem headWs_cons (c : Char) (l : List Char) : headWs (c :: l) = isPySpace c := by
  simp [headWs]

theorem headWs_reverse (l : List Char) : headWs l.reverse = lastWs l := by
  simp [headWs, lastWs, List.head?_reverse]

theorem lastWs_reverse (l : List Char) : lastWs l.reverse = headWs l := by
  simp [headWs, lastWs, List.getLast?_reverse]

theorem dropWhile_eq_self_of_headWs (l : List Char) (h : headWs l = false) :
    l.dropWhile isPySpace = l := by
  cases l with
  | nil => rfl
  | cons c rest =>
    have hc : isPySpace c = false := by simpa [headWs] using h
    simp [List.dropWhile_cons, hc]

theorem pstrip_eq_self (l : List Char) (h1 : headWs l = false) (h2 : lastWs l = false) :
    pstrip l = l := by
  unfold pstrip
  rw [dropWhile_eq_self_of_headWs l h1,
    dropWhile_eq_self_of_headWs l.reverse (by rw [headWs_reverse]; exact h2),
    List.reverse_reverse]

theorem headWs_dropWhile (l : List Char) : headWs (l.dropWhile isPySpace) = false := by
  induction l with
  | nil => rfl
  | cons c rest ih =>
    by_cases h : isPySpace c = true
    · rw [List.dropWhile_cons, if_pos h]
      exact ih
    · rw [List.dropWhile_cons, if_neg h, headWs_cons]
      simpa using h

theorem getLast?_dropWhile (p : Char → Bool) (l : List Char) (h : l.dropWhile p ≠ []) :
    (l.dropWhile p).getLast? = l.getLast? := by
  conv_rhs => rw [← List.takeWhile_append_dropWhile (p := p) (l := l)]
  rw [List.getLast?_append]
  cases hx : (l.dropWhile p).getLast? with
  | none => exact absurd (List.getLast?_eq_none_iff.mp hx) h
  | some a => simp

theorem lastWs_pstrip (l : List Char) : lastWs (pstrip l) = false := by
  unfold pstrip
  rw [lastWs_reverse]
  exact headWs_dropWhile _

theorem headWs_pstrip (l : List Char) : headWs (pstrip l) = false := by
  by_cases hx : (l.dropWhile isPySpace).reverse.dropWhile isPySpace = []
  · simp [pstrip, hx, headWs]
  · unfold pstrip
    rw [headWs_reverse, lastWs,
      getLast?_dropWhile isPySpace (l.dropWhile isPySpace).reverse hx,
      List.getLast?_reverse]
    have hd := headWs_dropWhile l
    revert hd
    rw [headWs]
    cases (l.dropWhile isPySpace).head? with
    | none => intro _; rfl
    | some c => intro hd; exact hd

theorem pstrip_eq_self_iff (l : List Char) :
    pstrip l = l ↔ (headWs l = false ∧ lastWs l = false) := by
  constructor
  · intro h
    exact ⟨by rw [← h]; exact headWs_pstrip l, by rw [← h]; exact lastWs_pstrip l⟩
  · intro h
    exact pstrip_eq_self l h.1 h.2

theorem pstrip_idem (l : List Char) : pstrip (pstrip l) = pstrip l :=
  pstrip_eq_self _ (headWs_pstrip l) (lastWs_pstrip l)

theorem words_pstrip (l : List Char) : words (pstrip l) = words l := by
  have hpre : ∀ c ∈ l.takeWhile isPySpace, isPySpace c = true :=
    fun _ hc => List.mem_takeWhile_imp hc
  have hd : l = l.takeWhile isPySpace ++ l.dropWhile isPySpace :=
    (List.takeWhile_append_dropWhile _ _).symm
  have hsuf : ∀ c ∈ ((l.dropWhile isPySpace).reverse.takeWhile isPySpace).reverse,
      isPySpace c = true :=
    fun _ hc => List.mem_takeWhile_imp (List.mem_reverse.mp hc)
  have hd2 : l.dropWhile isPySpace =
      pstrip l ++ ((l.dropWhile isPySpace).reverse.takeWhile isPySpace).reverse := by
    unfold pstrip
    rw [← List.reverse_append, List.takeWhile_append_dropWhile, List.reverse_reverse]
  have h1 : words l = words (l.dropWhile isPySpace) := by
    conv_lhs => rw [hd]
    exact wgo_false_ws_append _ hpre _
  have h2 : words (l.dropWhile isPySpace) = words (pstrip l) := by
    conv_lhs => rw [hd2]
    exact wgo_append_ws _ hsuf (pstrip l) false
  rw [h1, h2]

theorem headWs_append (a b : List Char) (h : a ≠ []) : headWs (a ++ b) = headWs a := by
  cases a with
  | nil => exact absurd rfl h
  | cons c r => simp [headWs]

theorem lastWs_append (a b : List Char) (h : b ≠ []) : lastWs (a ++ b) = lastWs b := by
  rw [lastWs, lastWs, List.getLast?_append]
  cases hx : b.getLast? with
  | none => exact absurd (List.getLast?_eq_none_iff.mp hx) h
  | some c => simp

/-! ### Lemmas: wgo unfolding equations -/

theorem wgo_false_cons_ws (c : Char) (hc : isPySpace c = true) (l : List Char) :
    wgo false (c :: l) = wgo false l := by
  simp [wgo, hc]

theorem wgo_false_cons_nws (c : Char) (hc : isPySpace c = false) (l : List Char) :
    wgo false (c :: l) = consHead c (wgo true l) := by
  simp [wgo, hc]

theorem wgo_true_cons_ws (c : Char) (hc : isPySpace c = true) (l : List Char) :
    wgo true (c :: l) = [] :: wgo false l := by
  simp [wgo, hc]

theorem wgo_true_cons_nws (c : Char) (hc : isPySpace c = false) (l : List Char) :
    wgo true (c :: l) = consHead c (wgo true l) := by
  simp [wgo, hc]

theorem words_cons_nws (c : Char) (hc : isPySpace c = false) (l : List Char) :
    words (c :: l) = consHead c (wgo true l) := by
  simp [words, wgo, hc]

/-! ### Lemmas: sentence splitting -/

theorem sentGo_piece_cons_pos (b : Bool) (c : Char) (l : List Char)
    (h : (b && isPySpace c) = true) :
    sentGo (SentState.piece b) (c :: l) = [] :: sentGo SentState.gap l := by
  rw [sentGo, if_pos h]

theorem sentGo_piece_cons_neg (b : Bool) (c : Char) (l : List Char)
    (h : ¬((b && isPySpace c) = true)) :
    sentGo (SentState.piece b) (c :: l) = consHead c (sentGo (SentState.piece (isTerm c)) l) := by
  rw [sentGo, if_neg h]

theorem sentGo_gap_cons_pos (c : Char) (l : List Char) (h : isPySpace c = true) :
    sentGo SentState.gap (c :: l) = sentGo SentState.gap l := by
  rw [sentGo, if_pos h]

theorem sentGo_gap_cons_neg (c : Char) (l : List Char) (h : ¬(isPySpace c = true)) :
    sentGo SentState.gap (c :: l) = consHead c (sentGo (SentState.piece (isTerm c)) l) := by
  rw [sentGo, if_neg h]

theorem sentGo_ne_nil (st : SentState) (l : List Char) : sentGo st l ≠ [] := by
  cases l with
  | nil => cases st <;> simp [sentGo]
  | cons c rest =>
    cases st with
    | gap =>
      by_cases h : isPySpace c = true
      · rw [sentGo_gap_cons_pos _ _ h]
        exact sentGo_ne_nil SentState.gap rest
      · rw [sentGo_gap_cons_neg _ _ h]
        exact consHead_ne_nil _ _
    | piece b =>
      by_cases h : (b && isPySpace c) = true
      · rw [sentGo_piece_cons_pos _ _ _ h]
        simp
      · rw [sentGo_piece_cons_neg _ _ _ h]
        exact consHead_ne_nil _ _
termination_by l.length

theorem sentSplit_ne_nil (l : List Char) : sentSplit l ≠ [] :=
  sentGo_ne_nil _ l

theorem consHead_cons (c : Char) (p : List Char) (ps : List (List Char)) :
    consHead c (p :: ps) = (c :: p) :: ps := rfl

theorem sentGo_words (l : List Char) :
    (∀ b : Bool, (((sentGo (SentState.piece b) l).map words).flatten = wgo false l) ∧
      (∀ p ps, sentGo (SentState.piece b) l = p :: ps →
        wgo true p ++ (ps.map words).flatten = wgo true l)) ∧
    ((sentGo SentState.gap l).map words).flatten = wgo false l := by
  induction l with
  | nil =>
    refine ⟨fun b => ⟨by simp [sentGo, words, wgo], ?_⟩, by simp [sentGo, words, wgo]⟩
    intro p ps h
    simp only [sentGo] at h
    injection h with h1 h2
    subst h1
    subst h2
    simp [wgo, words]
  | cons c rest ih =>
    obtain ⟨ihp, ihg⟩ := ih
    have hRdec : ∀ b2 : Bool, ∃ p' ps', sentGo (SentState.piece b2) rest = p' :: ps' := by
      intro b2
      cases hx : sentGo (SentState.piece b2) rest with
      | nil => exact absurd hx (sentGo_ne_nil _ _)
      | cons p' ps' => exact ⟨p', ps', rfl⟩
    constructor
    · intro b
      by_cases hb : (b && isPySpace c) = true
      · have hws : isPySpace c = true := by
          have := hb
          simp only [Bool.and_eq_true] at this
          exact this.2
        constructor
        · rw [sentGo_piece_cons_pos _ _ _ hb, wgo_false_cons_ws c hws]
          simpa [words, wgo] using ihg
        · intro p ps h
          rw [sentGo_piece_cons_pos _ _ _ hb] at h
          injection h with h1 h2
          subst h1
          subst h2
          rw [wgo_true_cons_ws c hws, ← ihg]
          simp [wgo]
      · obtain ⟨p', ps', hR⟩ := hRdec (isTerm c)
        have hflat : wgo false p' ++ (ps'.map words).flatten = wgo false rest := by
          have := (ihp (isTerm c)).1
          rw [hR] at this
          simpa [words] using this
        have htrue : wgo true p' ++ (ps'.map words).flatten = wgo true rest :=
          (ihp (isTerm c)).2 p' ps' hR
        constructor
        · rw [sentGo_piece_cons_neg _ _ _ hb, hR, consHead_cons]
          simp only [List.map_cons, List.flatten_cons]
          by_cases hws : isPySpace c = true
          · rw [wgo_false_cons_ws c hws, words_cons_ws c hws]
            show wgo false p' ++ _ = _
            exact hflat
          · have hws' : isPySpace c = false := by simpa using hws
            rw [wgo_false_cons_nws c hws', words_cons_nws c hws',
              ← consHead_append _ _ _ (wgo_true_ne_nil p'), htrue]
        · intro p ps h
          rw [sentGo_piece_cons_neg _ _ _ hb, hR, consHead_cons] at h
          injection h with h1 h2
          subst h1
          subst h2
          by_cases hws : isPySpace c = true
          · rw [wgo_true_cons_ws c hws, wgo_true_cons_ws c hws]
            rw [List.cons_append, ← hflat]
          · have hws' : isPySpace c = false := by simpa using hws
            rw [wgo_true_cons_nws c hws', wgo_true_cons_nws c hws',
              ← consHead_append _ _ _ (wgo_true_ne_nil p'), htrue]
    · by_cases hws : isPySpace c = true
      · rw [sentGo_gap_cons_pos _ _ hws, wgo_false_cons_ws c hws]
        exact ihg
      · have hws' : isPySpace c = false := by simpa using hws
        obtain ⟨p', ps', hR⟩ := hRdec (isTerm c)
        have htrue : wgo true p' ++ (ps'.map words).flatten = wgo true rest :=
          (ihp (isTerm c)).2 p' ps' hR
        rw [sentGo_gap_cons_neg _ _ hws, hR, consHead_cons]
        simp only [List.map_cons, List.flatten_cons]
        rw [wgo_false_cons_nws c hws', words_cons_nws c hws',
          ← consHead_append _ _ _ (wgo_true_ne_nil p'), htrue]

theorem sentSplit_words (l : List Char) :
    ((sentSplit l).map words).flatten = words l :=
  ((sentGo_words l).1 false).1

theorem isTerm_not_ws (c : Char) (h : isTerm c = true) : isPySpace c = false := by
  simp only [isTerm, Bool.or_eq_true, decide_eq_true_eq] at h
  rcases h with (h | h) | h <;> subst h <;> decide

theorem lastWs_singleton (c : Char) : lastWs [c] = isPySpace c := by
  simp [lastWs]

theorem lastWs_cons_ne (c : Char) (rest : List Char) (h : rest ≠ []) :
    lastWs (c :: rest) = lastWs rest := by
  have := lastWs_append [c] rest h
  simpa using this

theorem sentGo_edges (l : List Char) :
    lastWs l = false →
    ((∀ (b : Bool) (p : List Char) (ps : List (List Char)),
        sentGo (SentState.piece b) l = p :: ps →
        lastWs p = false ∧ ∀ s ∈ ps, s ≠ [] ∧ headWs s = false ∧ lastWs s = false) ∧
      (l ≠ [] → ∀ s ∈ sentGo SentState.gap l,
        s ≠ [] ∧ headWs s = false ∧ lastWs s = false)) := by
  induction l with
  | nil =>
    intro _
    constructor
    · intro b p ps h
      simp only [sentGo] at h
      injection h with h1 h2
      subst h1
      subst h2
      exact ⟨rfl, by simp⟩
    · intro h
      exact absurd rfl h
  | cons c rest ih =>
    intro hlast
    have hlast' : lastWs rest = false := by
      cases hr : rest with
      | nil => rfl
      | cons d r =>
        rw [hr] at hlast
        rw [← lastWs_cons_ne c (d :: r) (by simp)]
        exact hlast
    obtain ⟨ihp, ihg⟩ := ih hlast'
    have hRdec : ∃ p' ps', sentGo (SentState.piece (isTerm c)) rest = p' :: ps' := by
      cases hx : sentGo (SentState.piece (isTerm c)) rest with
      | nil => exact absurd hx (sentGo_ne_nil _ _)
      | cons p' ps' => exact ⟨p', ps', rfl⟩
    have headAnalysis : ∀ p' ps', sentGo (SentState.piece (isTerm c)) rest = p' :: ps' →
        lastWs (c :: p') = false := by
      intro p' ps' hR
      cases hp' : p' with
      | nil =>
        subst hp'
        cases hre : rest with
        | nil =>
          rw [hre] at hlast
          simpa [lastWs_singleton] using hlast
        | cons d rest' =>
          rw [hre] at hR
          by_cases h2 : (isTerm c && isPySpace d) = true
          · have htc : isTerm c = true := by
              simp only [Bool.and_eq_true] at h2
              exact h2.1
            rw [lastWs_singleton]
            exact isTerm_not_ws c htc
          · rw [sentGo_piece_cons_neg _ _ _ h2] at hR
            obtain ⟨q, qs, hQ⟩ : ∃ q qs, sentGo (SentState.piece (isTerm d)) rest' = q :: qs := by
              cases hx : sentGo (SentState.piece (isTerm d)) rest' with
              | nil => exact absurd hx (sentGo_ne_nil _ _)
              | cons q qs => exact ⟨q, qs, rfl⟩
            rw [hQ, consHead_cons] at hR
            injection hR with h1 _
            exact absurd h1 (by simp)
      | cons q p'' =>
        subst hp'
        rw [lastWs_cons_ne c (q :: p'') (by simp)]
        exact (ihp (isTerm c) (q :: p'') ps' hR).1
    constructor
    · intro b p ps h
      by_cases hb : (b && isPySpace c) = true
      · have hws : isPySpace c = true := by
          simp only [Bool.and_eq_true] at hb
          exact hb.2
        have hrne : rest ≠ [] := by
          intro hr
          rw [hr] at hlast
          rw [lastWs_singleton, hws] at hlast
          simp at hlast
        rw [sentGo_piece_cons_pos _ _ _ hb] at h
        injection h with h1 h2
        subst h1
        subst h2
        exact ⟨rfl, ihg hrne⟩
      · obtain ⟨p', ps', hR⟩ := hRdec
        rw [sentGo_piece_cons_neg _ _ _ hb, hR, consHead_cons] at h
        injection h with h1 h2
        subst h1
        subst h2
        exact ⟨headAnalysis p' ps' hR, (ihp (isTerm c) p' ps' hR).2⟩
    · intro _ s hs
      by_cases hws : isPySpace c = true
      · have hrne : rest ≠ [] := by
          intro hr
          rw [hr] at hlast
          rw [lastWs_singleton, hws] at hlast
          simp at hlast
        rw [sentGo_gap_cons_pos _ _ hws] at hs
        exact ihg hrne s hs
      · have hws' : isPySpace c = false := by simpa using hws
        obtain ⟨p', ps', hR⟩ := hRdec
        rw [sentGo_gap_cons_neg _ _ hws, hR, consHead_cons] at hs
        rcases List.mem_cons.mp hs with rfl | hmem
        · exact ⟨by simp, by simp [headWs_cons, hws'], headAnalysis p' ps' hR⟩
        · exact (ihp (isTerm c) p' ps' hR).2 s hmem

theorem sentSplit_edges (l : List Char) (hstr : pstrip l = l) (hne : l ≠ []) :
    ∀ s ∈ sentSplit l, s ≠ [] ∧ pstrip s = s := by
  obtain ⟨h1, h2⟩ := (pstrip_eq_self_iff l).mp hstr
  cases l with
  | nil => exact absurd rfl hne
  | cons c rest =>
    have hcns : isPySpace c = false := by simpa [headWs_cons] using h1
    intro s hs
    have hb : ¬((false && isPySpace c) = true) := by simp
    obtain ⟨p', ps', hR⟩ : ∃ p' ps', sentGo (SentState.piece (isTerm c)) rest = p' :: ps' := by
      cases hx : sentGo (SentState.piece (isTerm c)) rest with
      | nil => exact absurd hx (sentGo_ne_nil _ _)
      | cons p' ps' => exact ⟨p', ps', rfl⟩
    have hfull : sentGo (SentState.piece false) (c :: rest) = (c :: p') :: ps' := by
      rw [sentGo_piece_cons_neg _ _ _ hb, hR, consHead_cons]
    have hE := (sentGo_edges (c :: rest) h2).1 false (c :: p') ps' hfull
    rw [sentSplit, hfull] at hs
    rcases List.mem_cons.mp hs with rfl | hmem
    · exact ⟨by simp, (pstrip_eq_self_iff _).mpr ⟨by simp [headWs_cons, hcns], hE.1⟩⟩
    · obtain ⟨hne', hh, hl⟩ := hE.2 s hmem
      exact ⟨hne', (pstrip_eq_self_iff _).mpr ⟨hh, hl⟩⟩

/-! ### Lemmas: paragraph splitting and joining -/

theorem paraSplit_ne_nil (l : List Char) : paraSplit l ≠ [] := by
  match l with
  | [] => simp [paraSplit]
  | [c] => simp [paraSplit]
  | c :: d :: rest =>
    rw [paraSplit]
    by_cases h : (c = '\n' && d = '\n') = true
    · rw [if_pos h]
      simp
    · rw [if_neg h]
      cases paraSplit (d :: rest) <;> simp

theorem joinSep_cons_ne (sep p : List Char) (ps : List (List Char)) (h : ps ≠ []) :
    joinSep sep (p :: ps) = p ++ sep ++ joinSep sep ps := by
  cases ps with
  | nil => exact absurd rfl h
  | cons q qs => rfl

theorem joinSep_consHead (sep : List Char) (c : Char) (R : List (List Char)) (h : R ≠ []) :
    joinSep sep (consHead c R) = c :: joinSep sep R := by
  cases R with
  | nil => exact absurd rfl h
  | cons p ps =>
    cases ps with
    | nil => rfl
    | cons q qs => simp [consHead, joinSep]

theorem paraSplit_join (l : List Char) : joinSep "\n\n".data (paraSplit l) = l := by
  match l with
  | [] => rfl
  | [c] => rfl
  | c :: d :: rest =>
    rw [paraSplit]
    by_cases h : (c = '\n' && d = '\n') = true
    · rw [if_pos h]
      obtain ⟨hc, hd⟩ : c = '\n' ∧ d = '\n' := by simpa using h
      rw [joinSep_cons_ne _ _ _ (paraSplit_ne_nil rest), paraSplit_join rest]
      simp [hc, hd]
    · rw [if_neg h]
      obtain ⟨p, ps, hR⟩ : ∃ p ps, paraSplit (d :: rest) = p :: ps := by
        cases hx : paraSplit (d :: rest) with
        | nil => exact absurd hx (paraSplit_ne_nil _)
        | cons p ps => exact ⟨p, ps, rfl⟩
      rw [hR]
      have hrec := paraSplit_join (d :: rest)
      rw [hR] at hrec
      have hch : joinSep "\n\n".data ((c :: p) :: ps) = c :: joinSep "\n\n".data (p :: ps) := by
        have := joinSep_consHead "\n\n".data c (p :: ps) (by simp)
        simpa [consHead] using this
      rw [hch, hrec]
termination_by l.length

theorem mem_joinSep_cases (sep : List Char) (ps : List (List Char)) (c : Char)
    (hc : c ∈ joinSep sep ps) : (∃ p ∈ ps, c ∈ p) ∨ c ∈ sep := by
  induction ps with
  | nil => simp [joinSep] at hc
  | cons q qs ih =>
    cases qs with
    | nil => exact Or.inl ⟨q, by simp, hc⟩
    | cons r rs =>
      rw [joinSep_cons_ne _ _ _ (by simp)] at hc
      rcases List.mem_append.mp hc with h1 | h2
      · rcases List.mem_append.mp h1 with hq | hs
        · exact Or.inl ⟨q, by simp, hq⟩
        · exact Or.inr hs
      · rcases ih h2 with ⟨p, hp, hcp⟩ | hs
        · exact Or.inl ⟨p, by simp [hp], hcp⟩
        · exact Or.inr hs

theorem words_joinSep (sep : List Char) (hne : sep ≠ [])
    (hsep : ∀ c ∈ sep, isPySpace c = true) (ps : List (List Char)) :
    words (joinSep sep ps) = (ps.map words).flatten := by
  induction ps with
  | nil => rfl
  | cons q qs ih =>
    cases qs with
    | nil => simp [joinSep]
    | cons r rs =>
      rw [joinSep_cons_ne _ _ _ (by simp), List.append_assoc,
        words_append_sep sep hne hsep, ih]
      simp

theorem words_eq_flatten_paras (l : List Char) :
    words l = ((paraSplit l).map words).flatten := by
  conv_lhs => rw [← paraSplit_join l]
  exact words_joinSep _ (by simp) (by decide) _

theorem pstrip_eq_nil_iff (l : List Char) :
    pstrip l = [] ↔ ∀ c ∈ l, isPySpace c = true := by
  constructor
  · intro h c hc
    by_contra hnc
    have hd : l.dropWhile isPySpace ≠ [] := by
      intro hnil
      exact hnc (List.dropWhile_eq_nil_iff.mp hnil c hc)
    have hrd : (l.dropWhile isPySpace).reverse ≠ [] := by
      simpa [List.reverse_eq_nil_iff] using hd
    have h2 : (l.dropWhile isPySpace).reverse.dropWhile isPySpace = [] := by
      have := congrArg List.reverse h
      simpa [pstrip] using this
    have hall := List.dropWhile_eq_nil_iff.mp h2
    -- every char of dropWhile ws l is whitespace; but its head is not
    have hh := headWs_dropWhile l
    cases hx : l.dropWhile isPySpace with
    | nil => exact hd hx
    | cons d r =>
      have hdws : isPySpace d = true := by
        apply hall
        rw [hx]
        simp
      rw [hx, headWs_cons] at hh
      rw [hh] at hdws
      exact Bool.false_ne_true hdws
  · intro h
    have hd : l.dropWhile isPySpace = [] := List.dropWhile_eq_nil_iff.mpr h
    simp [pstrip, hd]

/-! ### Lemmas: the chunker loop preserves word content (claim C4 machinery) -/

theorem words_nil : words [] = [] := rfl

theorem addSentences_words (ml : Int) (ss : List (List Char)) :
    ∀ st : List (List Char) × List Char,
      ((addSentences ml st ss).1.map words).flatten ++ words (addSentences ml st ss).2
        = (st.1.map words).flatten ++ (words st.2 ++ (ss.map words).flatten) := by
  induction ss with
  | nil =>
    intro st
    simp [addSentences]
  | cons s ss ih =>
    intro st
    obtain ⟨chunks, cc⟩ := st
    simp only [addSentences]
    by_cases hfit : (cc.length : Int) + (s.length : Int) + 1 ≤ ml
    · rw [if_pos hfit, ih]
      by_cases hcc : cc.isEmpty = true
      · have hc : cc = [] := by simpa using hcc
        subst hc
        simp [words_nil]
      · rw [if_neg hcc]
        have hj : cc ++ ' ' :: s = cc ++ ([' '] ++ s) := by simp
        rw [hj, words_append_sep [' '] (by simp) (by decide) cc s]
        simp
    · rw [if_neg hfit, ih]
      by_cases hcc : cc.isEmpty = true
      · have hc : cc = [] := by simpa using hcc
        subst hc
        simp [words_nil]
      · rw [if_neg hcc]
        simp [words_pstrip, List.append_assoc]

theorem chunkParas_words (ml : Int) (ps : List (List Char)) :
    ∀ st : List (List Char) × List Char,
      ((chunkParas ml st ps).1.map words).flatten ++ words (chunkParas ml st ps).2
        = (st.1.map words).flatten ++ (words st.2 ++ (ps.map words).flatten) := by
  induction ps with
  | nil =>
    intro st
    simp [chunkParas]
  | cons p ps ih =>
    intro st
    obtain ⟨chunks, cc⟩ := st
    simp only [chunkParas]
    by_cases hblank : (pstrip p).isEmpty = true
    · rw [if_pos hblank, ih]
      have hp : pstrip p = [] := by simpa using hblank
      have hw : words p = [] := by
        rw [← words_pstrip p, hp]
        rfl
      simp [hw]
    · rw [if_neg hblank]
      by_cases hlong : ml < ((pstrip p).length : Int)
      · rw [if_pos hlong, ih, ← List.append_assoc, addSentences_words]
        have hws : ((sentSplit (pstrip p)).map words).flatten = words p := by
          rw [sentSplit_words, words_pstrip]
        rw [hws]
        simp
      · rw [if_neg hlong]
        by_cases hfit : (cc.length : Int) + ((pstrip p).length : Int) + 2 ≤ ml
        · rw [if_pos hfit, ih]
          by_cases hcc : cc.isEmpty = true
          · have hc : cc = [] := by simpa using hcc
            subst hc
            simp [words_nil, words_pstrip]
          · rw [if_neg hcc]
            have hj : cc ++ '\n' :: '\n' :: pstrip p = cc ++ ("\n\n".data ++ pstrip p) := by
              simp
            rw [hj, words_append_sep "\n\n".data (by simp) (by decide) cc (pstrip p),
              words_pstrip]
            simp
        · rw [if_neg hfit, ih]
          by_cases hcc : cc.isEmpty = true
          · have hc : cc = [] := by simpa using hcc
            subst hc
            simp [words_nil, words_pstrip]
          · rw [if_neg hcc]
            simp [words_pstrip, List.append_assoc]

theorem assembleChunks_words (st : List (List Char) × List Char) :
    ((assembleChunks st).map words).flatten = (st.1.map words).flatten ++ words st.2 := by
  by_cases h : st.2.isEmpty = true
  · have : st.2 = [] := by simpa using h
    simp [assembleChunks, h, this, words_nil]
  · simp [assembleChunks, h, words_pstrip]

/-! ### Lemmas: chunk buffers stay non-empty and stripped (claims C5/C6 machinery) -/

theorem append_ne_nil_right (a b : List Char) (h : b ≠ []) : a ++ b ≠ [] := by
  intro hx
  rw [List.append_eq_nil] at hx
  exact h hx.2

theorem pstrip_glue (a sep b : List Char) (hane : a ≠ []) (hbne : b ≠ [])
    (ha : headWs a = false) (hb : lastWs b = false) :
    pstrip (a ++ (sep ++ b)) = a ++ (sep ++ b) := by
  apply pstrip_eq_self
  · rw [headWs_append a _ hane]
    exact ha
  · rw [lastWs_append a _ (append_ne_nil_right sep b hbne), lastWs_append sep b hbne]
    exact hb

theorem addSentences_inv (ml : Int) (ss : List (List Char))
    (hss : ∀ s ∈ ss, s ≠ [] ∧ pstrip s = s) :
    ∀ st : List (List Char) × List Char,
      (∀ c ∈ st.1, c ≠ [] ∧ pstrip c = c) →
      (st.2 = [] ∨ pstrip st.2 = st.2) →
      ((∀ c ∈ (addSentences ml st ss).1, c ≠ [] ∧ pstrip c = c) ∧
        ((addSentences ml st ss).2 = [] ∨ pstrip (addSentences ml st ss).2 = (addSentences ml st ss).2)) := by
  induction ss with
  | nil =>
    intro st h1 h2
    simpa [addSentences] using ⟨h1, h2⟩
  | cons s ss ih =>
    intro st h1 h2
    obtain ⟨chunks, cc⟩ := st
    obtain ⟨hsne, hsstr⟩ := hss s (by simp)
    have hss' : ∀ t ∈ ss, t ≠ [] ∧ pstrip t = t := fun t ht => hss t (by simp [ht])
    simp only [addSentences]
    by_cases hfit : (cc.length : Int) + (s.length : Int) + 1 ≤ ml
    · rw [if_pos hfit]
      by_cases hcc : cc.isEmpty = true
      · rw [if_pos hcc]
        exact ih hss' (chunks, s) h1 (Or.inr hsstr)
      · rw [if_neg hcc]
        have hccne : cc ≠ [] := by simpa using hcc
        have hccstr : pstrip cc = cc := by
          rcases h2 with h | h
          · exact absurd h hccne
          · exact h
        have hglue : pstrip (cc ++ ' ' :: s) = cc ++ ' ' :: s := by
          have hj : cc ++ ' ' :: s = cc ++ ([' '] ++ s) := by simp
          rw [hj]
          exact pstrip_glue cc [' '] s hccne hsne
            ((pstrip_eq_self_iff cc).mp hccstr).1 ((pstrip_eq_self_iff s).mp hsstr).2
        exact ih hss' (chunks, cc ++ ' ' :: s) h1 (Or.inr hglue)
    · rw [if_neg hfit]
      by_cases hcc : cc.isEmpty = true
      · rw [if_pos hcc]
        exact ih hss' (chunks, s) h1 (Or.inr hsstr)
      · rw [if_neg hcc]
        have hccne : cc ≠ [] := by simpa using hcc
        have hccstr : pstrip cc = cc := by
          rcases h2 with hx | hx
          · exact absurd hx hccne
          · exact hx
        apply ih hss' (chunks ++ [pstrip cc], s) _ (Or.inr hsstr)
        intro c hc
        rcases List.mem_append.mp hc with h | h
        · exact h1 c h
        · have : c = pstrip cc := by simpa using h
          subst this
          rw [hccstr]
          exact ⟨hccne, hccstr⟩

theorem chunkParas_inv (ml : Int) (ps : List (List Char)) :
    ∀ st : List (List Char) × List Char,
      (∀ c ∈ st.1, c ≠ [] ∧ pstrip c = c) →
      (st.2 = [] ∨ pstrip st.2 = st.2) →
      ((∀ c ∈ (chunkParas ml st ps).1, c ≠ [] ∧ pstrip c = c) ∧
        ((chunkParas ml st ps).2 = [] ∨ pstrip (chunkParas ml st ps).2 = (chunkParas ml st ps).2)) := by
  induction ps with
  | nil =>
    intro st h1 h2
    simpa [chunkParas] using ⟨h1, h2⟩
  | cons p ps ih =>
    intro st h1 h2
    obtain ⟨chunks, cc⟩ := st
    simp only [chunkParas]
    by_cases hblank : (pstrip p).isEmpty = true
    · rw [if_pos hblank]
      exact ih _ h1 h2
    · rw [if_neg hblank]
      have hpne : pstrip p ≠ [] := by simpa using hblank
      have hpstr : pstrip (pstrip p) = pstrip p := pstrip_idem p
      by_cases hlong : ml < ((pstrip p).length : Int)
      · rw [if_pos hlong]
        exact ih _ (addSentences_inv ml (sentSplit (pstrip p))
          (sentSplit_edges (pstrip p) hpstr hpne) (chunks, cc) h1 h2).1
          (addSentences_inv ml (sentSplit (pstrip p))
          (sentSplit_edges (pstrip p) hpstr hpne) (chunks, cc) h1 h2).2
      · rw [if_neg hlong]
        by_cases hfit : (cc.length : Int) + ((pstrip p).length : Int) + 2 ≤ ml
        · rw [if_pos hfit]
          by_cases hcc : cc.isEmpty = true
          · rw [if_pos hcc]
            exact ih (chunks, pstrip p) h1 (Or.inr hpstr)
          · rw [if_neg hcc]
            have hccne : cc ≠ [] := by simpa using hcc
            have hccstr : pstrip cc = cc := by
              rcases h2 with hx | hx
              · exact absurd hx hccne
              · exact hx
            have hglue : pstrip (cc ++ '\n' :: '\n' :: pstrip p) = cc ++ '\n' :: '\n' :: pstrip p := by
              have hj : cc ++ '\n' :: '\n' :: pstrip p = cc ++ ("\n\n".data ++ pstrip p) := by
                simp
              rw [hj]
              exact pstrip_glue cc "\n\n".data (pstrip p) hccne hpne
                ((pstrip_eq_self_iff cc).mp hccstr).1 ((pstrip_eq_self_iff (pstrip p)).mp hpstr).2
            exact ih (chunks, cc ++ '\n' :: '\n' :: pstrip p) h1 (Or.inr hglue)
        · rw [if_neg hfit]
          by_cases hcc : cc.isEmpty = true
          · rw [if_pos hcc]
            exact ih (chunks, pstrip p) h1 (Or.inr hpstr)
          · rw [if_neg hcc]
            have hccne : cc ≠ [] := by simpa using hcc
            have hccstr : pstrip cc = cc := by
              rcases h2 with hx | hx
              · exact absurd hx hccne
              · exact hx
            apply ih (chunks ++ [pstrip cc], pstrip p) _ (Or.inr hpstr)
            intro c hc
            rcases List.mem_append.mp hc with h | h
            · exact h1 c h
            · have : c = pstrip cc := by simpa using h
              subst this
              rw [hccstr]
              exact ⟨hccne, hccstr⟩

theorem assembleChunks_inv (st : List (List Char) × List Char)
    (h1 : ∀ c ∈ st.1, c ≠ [] ∧ pstrip c = c)
    (h2 : st.2 = [] ∨ pstrip st.2 = st.2) :
    ∀ c ∈ assembleChunks st, c ≠ [] ∧ pstrip c = c := by
  intro c hc
  by_cases he : st.2.isEmpty = true
  · rw [assembleChunks, if_pos he] at hc
    exact h1 c hc
  · rw [assembleChunks, if_neg he] at hc
    rcases List.mem_append.mp hc with h | h
    · exact h1 c h
    · have hne : st.2 ≠ [] := by simpa using he
      have hstr : pstrip st.2 = st.2 := by
        rcases h2 with hx | hx
        · exact absurd hx hne
        · exact hx
      have : c = pstrip st.2 := by simpa using h
      subst this
      rw [hstr]
      exact ⟨hne, hstr⟩

/-! ### Lemmas: chunk length bound with oversized-sentence exception (claim C3 machinery) -/

theorem IsSentOf_pstrip (text cc : List Char) (h : IsSentOf text cc) : pstrip cc = cc := by
  obtain ⟨p, _, hpne, hmem⟩ := h
  exact (sentSplit_edges (pstrip p) (pstrip_idem p) hpne cc hmem).2

theorem IsSentOf_ne_nil (text cc : List Char) (h : IsSentOf text cc) : cc ≠ [] := by
  obtain ⟨p, _, hpne, hmem⟩ := h
  exact (sentSplit_edges (pstrip p) (pstrip_idem p) hpne cc hmem).1

theorem flush_ok (ml : Int) (text cc : List Char)
    (h : (cc.length : Int) ≤ ml ∨ IsSentOf text cc) :
    ((pstrip cc).length : Int) ≤ ml ∨ IsSentOf text (pstrip cc) := by
  rcases h with h | h
  · left
    have := pstrip_length_le cc
    omega
  · right
    rw [IsSentOf_pstrip text cc h]
    exact h

theorem addSentences_len (ml : Int) (text : List Char) (ss : List (List Char))
    (hss : ∀ s ∈ ss, IsSentOf text s) :
    ∀ st : List (List Char) × List Char,
      (∀ c ∈ st.1, (c.length : Int) ≤ ml ∨ IsSentOf text c) →
      (st.2 = [] ∨ (st.2.length : Int) ≤ ml ∨ IsSentOf text st.2) →
      ((∀ c ∈ (addSentences ml st ss).1, (c.length : Int) ≤ ml ∨ IsSentOf text c) ∧
        ((addSentences ml st ss).2 = [] ∨ ((addSentences ml st ss).2.length : Int) ≤ ml ∨
          IsSentOf text (addSentences ml st ss).2)) := by
  induction ss with
  | nil =>
    intro st h1 h2
    simpa [addSentences] using ⟨h1, h2⟩
  | cons s ss ih =>
    intro st h1 h2
    obtain ⟨chunks, cc⟩ := st
    have hs : IsSentOf text s := hss s (by simp)
    have hss' : ∀ t ∈ ss, IsSentOf text t := fun t ht => hss t (by simp [ht])
    simp only [addSentences]
    by_cases hfit : (cc.length : Int) + (s.length : Int) + 1 ≤ ml
    · rw [if_pos hfit]
      by_cases hcc : cc.isEmpty = true
      · rw [if_pos hcc]
        exact ih hss' (chunks, s) h1 (Or.inr (Or.inr hs))
      · rw [if_neg hcc]
        apply ih hss' (chunks, cc ++ ' ' :: s) h1
        right
        left
        have : (cc ++ ' ' :: s).length = cc.length + (s.length + 1) := by
          simp [List.length_append]
        rw [this]
        push_cast
        omega
    · rw [if_neg hfit]
      by_cases hcc : cc.isEmpty = true
      · rw [if_pos hcc]
        exact ih hss' (chunks, s) h1 (Or.inr (Or.inr hs))
      · rw [if_neg hcc]
        have hccne : cc ≠ [] := by simpa using hcc
        have hcc2 : (cc.length : Int) ≤ ml ∨ IsSentOf text cc := by
          rcases h2 with hx | hx
          · exact absurd hx hccne
          · exact hx
        apply ih hss' (chunks ++ [pstrip cc], s) _ (Or.inr (Or.inr hs))
        intro c hc
        rcases List.mem_append.mp hc with h | h
        · exact h1 c h
        · have : c = pstrip cc := by simpa using h
          subst this
          exact flush_ok ml text cc hcc2

theorem chunkParas_len (ml : Int) (text : List Char) (ps : List (List Char))
    (hps : ∀ p ∈ ps, p ∈ paraSplit text) :
    ∀ st : List (List Char) × List Char,
      (∀ c ∈ st.1, (c.length : Int) ≤ ml ∨ IsSentOf text c) →
      (st.2 = [] ∨ (st.2.length : Int) ≤ ml ∨ IsSentOf text st.2) →
      ((∀ c ∈ (chunkParas ml st ps).1, (c.length : Int) ≤ ml ∨ IsSentOf text c) ∧
        ((chunkParas ml st ps).2 = [] ∨ ((chunkParas ml st ps).2.length : Int) ≤ ml ∨
          IsSentOf text (chunkParas ml st ps).2)) := by
  induction ps with
  | nil =>
    intro st h1 h2
    simpa [chunkParas] using ⟨h1, h2⟩
  | cons p ps ih =>
    intro st h1 h2
    obtain ⟨chunks, cc⟩ := st
    have hp : p ∈ paraSplit text := hps p (by simp)
    have hps' : ∀ q ∈ ps, q ∈ paraSplit text := fun q hq => hps q (by simp [hq])
    have ih' := ih hps'
    simp only [chunkParas]
    by_cases hblank : (pstrip p).isEmpty = true
    · rw [if_pos hblank]
      exact ih' _ h1 h2
    · rw [if_neg hblank]
      have hpne : pstrip p ≠ [] := by simpa using hblank
      by_cases hlong : ml < ((pstrip p).length : Int)
      · rw [if_pos hlong]
        have hss : ∀ s ∈ sentSplit (pstrip p), IsSentOf text s :=
          fun s hs => ⟨p, hp, hpne, hs⟩
        have hadd := addSentences_len ml text (sentSplit (pstrip p)) hss (chunks, cc) h1 h2
        exact ih' _ hadd.1 hadd.2
      · rw [if_neg hlong]
        have hplen : ((pstrip p).length : Int) ≤ ml := by omega
        by_cases hfit : (cc.length : Int) + ((pstrip p).length : Int) + 2 ≤ ml
        · rw [if_pos hfit]
          by_cases hcc : cc.isEmpty = true
          · rw [if_pos hcc]
            exact ih' (chunks, pstrip p) h1 (Or.inr (Or.inl hplen))
          · rw [if_neg hcc]
            apply ih' (chunks, cc ++ '\n' :: '\n' :: pstrip p) h1
            right
            left
            have : (cc ++ '\n' :: '\n' :: pstrip p).length
                = cc.length + ((pstrip p).length + 2) := by
              simp [List.length_append]
            rw [this]
            push_cast
            omega
        · rw [if_neg hfit]
          by_cases hcc : cc.isEmpty = true
          · rw [if_pos hcc]
            exact ih' (chunks, pstrip p) h1 (Or.inr (Or.inl hplen))
          · rw [if_neg hcc]
            have hccne : cc ≠ [] := by simpa using hcc
            have hcc2 : (cc.length : Int) ≤ ml ∨ IsSentOf text cc := by
              rcases h2 with hx | hx
              · exact absurd hx hccne
              · exact hx
            apply ih' (chunks ++ [pstrip cc], pstrip p) _ (Or.inr (Or.inl hplen))
            intro c hc
            rcases List.mem_append.mp hc with h | h
            · exact h1 c h
            · have : c = pstrip cc := by simpa using h
              subst this
              exact flush_ok ml text cc hcc2

theorem assembleChunks_len (ml : Int) (text : List Char) (st : List (List Char) × List Char)
    (h1 : ∀ c ∈ st.1, (c.length : Int) ≤ ml ∨ IsSentOf text c)
    (h2 : st.2 = [] ∨ (st.2.length : Int) ≤ ml ∨ IsSentOf text st.2) :
    ∀ c ∈ assembleChunks st, (c.length : Int) ≤ ml ∨ IsSentOf text c := by
  intro c hc
  by_cases he : st.2.isEmpty = true
  · rw [assembleChunks, if_pos he] at hc
    exact h1 c hc
  · rw [assembleChunks, if_neg he] at hc
    rcases List.mem_append.mp hc with h | h
    · exact h1 c h
    · have hne : st.2 ≠ [] := by simpa using he
      have hx : (st.2.length : Int) ≤ ml ∨ IsSentOf text st.2 := by
        rcases h2 with hy | hy
        · exact absurd hy hne
        · exact hy
      have : c = pstrip st.2 := by simpa using h
      subst this
      exact flush_ok ml text st.2 hx

/-! ### Lemmas: non-blank input yields chunks, blank input yields none (claim C5 machinery) -/

theorem mem_joinSep_of_mem (sep : List Char) (ps : List (List Char)) (p : List Char)
    (hp : p ∈ ps) (c : Char) (hc : c ∈ p) : c ∈ joinSep sep ps := by
  induction ps with
  | nil => cases hp
  | cons q qs ih =>
    cases qs with
    | nil =>
      rcases List.mem_cons.mp hp with rfl | h
      · exact hc
      · cases h
    | cons r rs =>
      rw [joinSep_cons_ne _ _ _ (by simp)]
      rcases List.mem_cons.mp hp with rfl | h
      · simp [hc]
      · simp [ih h]

theorem chunkParas_skip (ml : Int) (ps : List (List Char))
    (h : ∀ p ∈ ps, pstrip p = []) : ∀ st, chunkParas ml st ps = st := by
  induction ps with
  | nil =>
    intro st
    simp [chunkParas]
  | cons p ps ih =>
    intro st
    obtain ⟨chunks, cc⟩ := st
    have hp : pstrip p = [] := h p (by simp)
    have h' : ∀ q ∈ ps, pstrip q = [] := fun q hq => h q (by simp [hq])
    simp only [chunkParas]
    rw [if_pos (by simp [hp])]
    exact ih h' (chunks, cc)

theorem addSentences_snd_ne (ml : Int) (ss : List (List Char)) (hne : ss ≠ [])
    (hss : ∀ s ∈ ss, s ≠ []) :
    ∀ st : List (List Char) × List Char, (addSentences ml st ss).2 ≠ [] := by
  induction ss with
  | nil => exact absurd rfl hne
  | cons s ss ih =>
    intro st
    obtain ⟨chunks, cc⟩ := st
    have hs : s ≠ [] := hss s (by simp)
    have hss' : ∀ t ∈ ss, t ≠ [] := fun t ht => hss t (by simp [ht])
    simp only [addSentences]
    cases hx : ss with
    | nil =>
      subst hx
      by_cases hfit : (cc.length : Int) + (s.length : Int) + 1 ≤ ml
      · rw [if_pos hfit]
        simp only [addSentences]
        by_cases hcc : cc.isEmpty = true
        · rw [if_pos hcc]
          exact hs
        · rw [if_neg hcc]
          have hccne : cc ≠ [] := by simpa using hcc
          intro hx2
          rw [List.append_eq_nil] at hx2
          exact hccne hx2.1
      · rw [if_neg hfit]
        simp only [addSentences]
        exact hs
    | cons s2 ss2 =>
      subst hx
      by_cases hfit : (cc.length : Int) + (s.length : Int) + 1 ≤ ml
      · rw [if_pos hfit]
        exact ih (by simp) hss' _
      · rw [if_neg hfit]
        exact ih (by simp) hss' _

theorem chunkParas_ne (ml : Int) (ps : List (List Char)) :
    ∀ st : List (List Char) × List Char,
      ((st.1 ≠ [] ∨ st.2 ≠ []) ∨ ∃ p ∈ ps, pstrip p ≠ []) →
      ((chunkParas ml st ps).1 ≠ [] ∨ (chunkParas ml st ps).2 ≠ []) := by
  induction ps with
  | nil =>
    intro st h
    rcases h with h | h
    · simpa [chunkParas] using h
    · obtain ⟨p, hp, _⟩ := h
      cases hp
  | cons p ps ih =>
    intro st h
    obtain ⟨chunks, cc⟩ := st
    simp only [chunkParas]
    by_cases hblank : (pstrip p).isEmpty = true
    · rw [if_pos hblank]
      apply ih
      rcases h with h | h
      · exact Or.inl h
      · obtain ⟨q, hq, hqne⟩ := h
        rcases List.mem_cons.mp hq with rfl | hmem
        · exact absurd (by simpa using hblank) hqne
        · exact Or.inr ⟨q, hmem, hqne⟩
    · rw [if_neg hblank]
      have hpne : pstrip p ≠ [] := by simpa using hblank
      by_cases hlong : ml < ((pstrip p).length : Int)
      · rw [if_pos hlong]
        apply ih
        left
        right
        exact addSentences_snd_ne ml (sentSplit (pstrip p)) (sentSplit_ne_nil _)
          (fun s hs => (sentSplit_edges (pstrip p) (pstrip_idem p) hpne s hs).1) _
      · rw [if_neg hlong]
        by_cases hfit : (cc.length : Int) + ((pstrip p).length : Int) + 2 ≤ ml
        · rw [if_pos hfit]
          apply ih
          left
          right
          by_cases hcc : cc.isEmpty = true
          · rw [if_pos hcc]
            exact hpne
          · rw [if_neg hcc]
            have hccne : cc ≠ [] := by simpa using hcc
            intro hx
            rw [List.append_eq_nil] at hx
            exact hccne hx.1
        · rw [if_neg hfit]
          apply ih
          left
          right
          exact hpne

theorem assembleChunks_ne (st : List (List Char) × List Char)
    (h : st.1 ≠ [] ∨ st.2 ≠ []) : assembleChunks st ≠ [] := by
  by_cases he : st.2.isEmpty = true
  · rw [assembleChunks, if_pos he]
    rcases h with h | h
    · exact h
    · exact absurd (by simpa using he) h
  · rw [assembleChunks, if_neg he]
    intro hx
    rw [List.append_eq_nil] at hx
    simp at hx

/-! ### Lemmas: behaviour for non-positive max_length (claim C2 machinery) -/

theorem addSentences_nonpos (ml : Int) (hml : ml ≤ 0) (ss : List (List Char))
    (hss : ∀ s ∈ ss, s ≠ []) :
    ∀ st : List (List Char) × List Char,
      assembleChunks (addSentences ml st ss) = assembleChunks st ++ ss.map pstrip := by
  induction ss with
  | nil =>
    intro st
    simp [addSentences]
  | cons s ss ih =>
    intro st
    obtain ⟨chunks, cc⟩ := st
    have hs : s ≠ [] := hss s (by simp)
    have hsf : s.isEmpty = false := by
      cases s with
      | nil => exact absurd rfl hs
      | cons a b => rfl
    simp only [addSentences]
    have hfit : ¬((cc.length : Int) + (s.length : Int) + 1 ≤ ml) := by
      have h1 : (0:Int) ≤ (cc.length : Int) := Int.natCast_nonneg _
      have h2 : (0:Int) ≤ (s.length : Int) := Int.natCast_nonneg _
      omega
    rw [if_neg hfit, ih (fun t ht => hss t (by simp [ht]))]
    by_cases hcc : cc.isEmpty = true
    · rw [if_pos hcc]
      have hc : cc = [] := by simpa using hcc
      subst hc
      simp [assembleChunks, hsf]
    · rw [if_neg hcc]
      have hcf : cc.isEmpty = false := by simpa using hcc
      simp [assembleChunks, hsf, hcf]

theorem chunkParas_nonpos (ml : Int) (hml : ml ≤ 0) (ps : List (List Char)) :
    ∀ st : List (List Char) × List Char,
      assembleChunks (chunkParas ml st ps) = assembleChunks st ++
        (ps.map (fun p => if (pstrip p).isEmpty then []
          else (sentSplit (pstrip p)).map pstrip)).flatten := by
  induction ps with
  | nil =>
    intro st
    simp [chunkParas]
  | cons p ps ih =>
    intro st
    obtain ⟨chunks, cc⟩ := st
    simp only [chunkParas]
    by_cases hblank : (pstrip p).isEmpty = true
    · rw [if_pos hblank, ih]
      have hp : pstrip p = [] := by simpa using hblank
      simp [hp]
    · rw [if_neg hblank]
      have hpne : pstrip p ≠ [] := by simpa using hblank
      have hlong : ml < ((pstrip p).length : Int) := by
        have h1 : 0 < (pstrip p).length := List.length_pos.mpr hpne
        have h2 : (1:Int) ≤ ((pstrip p).length : Int) := by exact_mod_cast h1
        omega
      rw [if_pos hlong, ih,
        addSentences_nonpos ml hml (sentSplit (pstrip p))
          (fun s hs => (sentSplit_edges (pstrip p) (pstrip_idem p) hpne s hs).1)]
      simp [hblank, hpne, List.append_assoc]

/-! ### Lemmas: the synthesis loop model (claim C9 machinery) -/

theorem synthLoop_all_none {α : Type} (synth : Nat → String → Option α) :
    ∀ (cs : List String) (k : Nat),
      (∀ j (hj : j < cs.length), synth (k + j) cs[j] = none) →
      synthLoop synth k cs = [] := by
  intro cs
  induction cs with
  | nil =>
    intro k _
    rfl
  | cons c cs ih =>
    intro k h
    have h0 : synth k c = none := by
      have := h 0 (by simp)
      simpa using this
    simp only [synthLoop, h0]
    apply ih (k + 1)
    intro j hj
    have := h (j + 1) (by simpa using Nat.succ_lt_succ hj)
    simpa [Nat.add_assoc, Nat.add_comm 1 j] using this

theorem synthLoop_mem {α : Type} (synth : Nat → String → Option α) :
    ∀ (cs : List String) (k j : Nat) (hj : j < cs.length) (a : α),
      synth (k + j) cs[j] = some a → a ∈ synthLoop synth k cs := by
  intro cs
  induction cs with
  | nil =>
    intro k j hj
    simp at hj
  | cons c cs ih =>
    intro k j hj a hs
    cases j with
    | zero =>
      have hs' : synth k c = some a := by simpa using hs
      simp [synthLoop, hs']
    | succ j =>
      have hj' : j < cs.length := by simpa using hj
      have hs' : synth ((k + 1) + j) cs[j] = some a := by
        have hx : k + (j + 1) = (k + 1) + j := by omega
        simpa [hx] using hs
      have hmem := ih (k + 1) j hj' a hs'
      simp only [synthLoop]
      cases hx : synth k c <;> simp [hmem]

/-! ### Lemmas: flatten with blank entries dropped -/

theorem flatten_if_filter {α β : Type} (cond : α → Bool) (h : α → List β) (ps : List α) :
    (ps.map (fun p => if cond p then [] else h p)).flatten
      = ((ps.filter (fun p => !cond p)).map h).flatten := by
  induction ps with
  | nil => rfl
  | cons q qs ih =>
    by_cases hc : cond q = true <;> simp [List.filter_cons, hc, ih]

/-! ### Claim theorems -/

/-- C2 (amended): `chunk_text` performs no validation of `max_length`: for
`max_length ≤ 0` it does not fail and does not clamp; every non-blank
paragraph falls through to sentence splitting and every sentence is emitted as
its own (stripped) chunk. -/
theorem c2_nonpositive_limit_yields_sentence_chunks (text : String) (ml : Int)
    (hml : ml ≤ 0) : chunk_text text ml = sentenceChunks text := by
  rw [chunk_text, chunkParas_nonpos ml hml (paraSplit text.data) ([], [])]
  have h0 : assembleChunks ([], []) = ([] : List (List Char)) := rfl
  rw [h0, List.nil_append, sentenceChunks, List.map_flatten, List.map_map]
  have hfun : (List.map (fun l => String.mk l) ∘ fun p =>
      if (pstrip p).isEmpty = true then [] else List.map pstrip (sentSplit (pstrip p)))
      = fun p => if (pstrip p).isEmpty = true then []
          else List.map (fun s => String.mk (pstrip s)) (sentSplit (pstrip p)) := by
    funext p
    simp only [Function.comp_apply]
    by_cases hc : (pstrip p).isEmpty = true
    · rw [if_pos hc, if_pos hc]
      rfl
    · rw [if_neg hc, if_neg hc, List.map_map]
      rfl
  rw [hfun, flatten_if_filter (fun p => (pstrip p).isEmpty)
    (fun p => List.map (fun s => String.mk (pstrip s)) (sentSplit (pstrip p)))
    (paraSplit text.data), List.filter_map, List.map_map]
  rfl

/-- Witness for `c2_nonpositive_limit_yields_sentence_chunks` at a concrete
input. -/
theorem c2_nonpositive_limit_yields_sentence_chunks_witness :
    (0 : Int) ≤ 0 ∧ chunk_text "A. B." 0 = sentenceChunks "A. B." :=
  ⟨by decide, c2_nonpositive_limit_yields_sentence_chunks "A. B." 0 (by decide)⟩

/-- C2 (counterexample): with `max_length = 0 ≤ 0`, `chunk_text` does not
fail: it returns a chunk sequence, so the claim that a non-positive limit is
rejected before processing is false of the code. -/
theorem c2_returns_chunks_for_nonpositive_limit :
    chunk_text "Hello." 0 = ["Hello."] := by decide

/-- C3: for a positive limit, any chunk longer than `max_length` is exactly
one sentence of one non-blank paragraph of the input, emitted verbatim. -/
theorem c3_oversized_chunk_is_single_sentence (text : String) (ml : Int)
    (_hml : 0 < ml) :
    ∀ c ∈ chunk_text text ml, ml < (c.data.length : Int) →
      ∃ p ∈ paraSplit text.data, pstrip p ≠ [] ∧ c.data ∈ sentSplit (pstrip p) := by
  intro c hc hlen
  rw [chunk_text] at hc
  obtain ⟨l, hl, hmk⟩ := List.mem_map.mp hc
  subst hmk
  have hinv := chunkParas_len ml text.data (paraSplit text.data)
    (fun p hp => hp) ([], []) (by simp) (Or.inl rfl)
  have hok := assembleChunks_len ml text.data _ hinv.1 hinv.2 l hl
  rcases hok with h | h
  · exfalso
    have hx : (String.mk l).data = l := rfl
    rw [hx] at hlen
    omega
  · obtain ⟨p, hp, hpne, hmem⟩ := h
    exact ⟨p, hp, hpne, hmem⟩

/-- Witness for `c3_oversized_chunk_is_single_sentence` at a concrete input
whose only sentence exceeds the limit. -/
theorem c3_oversized_chunk_is_single_sentence_witness :
    (0 : Int) < 5 ∧
      ∃ p ∈ paraSplit "This is a long sentence.".data,
        pstrip p ≠ [] ∧ "This is a long sentence.".data ∈ sentSplit (pstrip p) :=
  ⟨by decide, c3_oversized_chunk_is_single_sentence "This is a long sentence." 5 (by decide)
    "This is a long sentence." (by decide) (by decide)⟩

/-- C4: joining the chunks with the paragraph separator reproduces the input
text word for word (losslessly up to whitespace normalization), in original
order. -/
theorem c4_chunks_reconstruct_input_words (text : String) (ml : Int)
    (_hml : 0 < ml) :
    words (joinSep "\n\n".data ((chunk_text text ml).map String.data))
      = words text.data := by
  have h1 : (chunk_text text ml).map String.data
      = assembleChunks (chunkParas ml ([], []) (paraSplit text.data)) := by
    rw [chunk_text, List.map_map]
    have : (String.data ∘ fun l => String.mk l) = id := by
      funext l
      rfl
    rw [this, List.map_id]
  rw [h1, words_joinSep "\n\n".data (by simp) (by decide), assembleChunks_words,
    chunkParas_words ml (paraSplit text.data) ([], [])]
  rw [words_eq_flatten_paras text.data]
  simp [words_nil]

/-- Witness for `c4_chunks_reconstruct_input_words` at a concrete input. -/
theorem c4_chunks_reconstruct_input_words_witness :
    (0 : Int) < 8 ∧
      words (joinSep "\n\n".data ((chunk_text "Hello there.\n\nBye now." 8).map String.data))
        = words "Hello there.\n\nBye now.".data :=
  ⟨by decide, c4_chunks_reconstruct_input_words "Hello there.\n\nBye now." 8 (by decide)⟩

/-- C5: `chunk_text` returns the empty sequence exactly when the input is
empty or whitespace-only. -/
theorem c5_empty_iff_blank (text : String) (ml : Int) (_hml : 0 < ml) :
    chunk_text text ml = [] ↔ text.data.all isPySpace = true := by
  constructor
  · intro h
    rw [List.all_eq_true]
    by_contra hx
    push_neg at hx
    obtain ⟨c, hc, hcw⟩ := hx
    have hcmem : c ∈ joinSep "\n\n".data (paraSplit text.data) := by
      rw [paraSplit_join]
      exact hc
    rcases mem_joinSep_cases _ _ _ hcmem with ⟨p, hp, hcp⟩ | hsep
    · have hpne : pstrip p ≠ [] := by
        intro hnil
        exact hcw ((pstrip_eq_nil_iff p).mp hnil c hcp)
      have hkeep := chunkParas_ne ml (paraSplit text.data) ([], [])
        (Or.inr ⟨p, hp, hpne⟩)
      have hne := assembleChunks_ne _ hkeep
      rw [chunk_text] at h
      exact hne (List.map_eq_nil_iff.mp h)
    · have : c = '\n' := by
        rcases List.mem_cons.mp hsep with h1 | h1
        · exact h1
        · simpa using h1
      subst this
      exact hcw (by decide)
  · intro h
    have hall : ∀ p ∈ paraSplit text.data, pstrip p = [] := by
      intro p hp
      rw [pstrip_eq_nil_iff]
      intro c hc
      have hcmem : c ∈ text.data := by
        rw [← paraSplit_join text.data]
        exact mem_joinSep_of_mem _ _ p hp c hc
      exact List.all_eq_true.mp h c hcmem
    rw [chunk_text, chunkParas_skip ml _ hall ([], [])]
    rfl

/-- Witness for `c5_empty_iff_blank` at a concrete input. -/
theorem c5_empty_iff_blank_witness :
    (0 : Int) < 10 ∧ (chunk_text "x" 10 = [] ↔ "x".data.all isPySpace = true) :=
  ⟨by decide, c5_empty_iff_blank "x" 10 (by decide)⟩

/-- C6: every chunk returned by `chunk_text` is non-empty and carries no
leading or trailing whitespace. -/
theorem c6_chunks_nonempty_and_stripped (text : String) (ml : Int)
    (_hml : 0 < ml) :
    ∀ c ∈ chunk_text text ml, c ≠ "" ∧ pstrip c.data = c.data := by
  intro c hc
  rw [chunk_text] at hc
  obtain ⟨l, hl, hmk⟩ := List.mem_map.mp hc
  subst hmk
  have hinv := chunkParas_inv ml (paraSplit text.data) ([], []) (by simp) (Or.inl rfl)
  have hgood := assembleChunks_inv _ hinv.1 hinv.2 l hl
  constructor
  · intro hx
    apply hgood.1
    have := congrArg String.data hx
    simpa using this
  · exact hgood.2

/-- Witness for `c6_chunks_nonempty_and_stripped` at a concrete input. -/
theorem c6_chunks_nonempty_and_stripped_witness :
    (0 : Int) < 9 ∧ (("a b." : String) ≠ "" ∧ pstrip "a b.".data = "a b.".data) :=
  ⟨by decide, c6_chunks_nonempty_and_stripped "  a b.  " 9 (by decide) "a b." (by decide)⟩

/-- C9: in the per-chunk synthesis loop of `generate_audiobook`, a failing
chunk is skipped and processing continues (any chunk that succeeds contributes
its audio to the `Except.ok` result), and when every chunk fails the run stops
with the `RuntimeError` message instead of producing an output. -/
theorem c9_failed_chunks_skipped_total_failure_raises {α : Type}
    (synth : Nat → String → Option α) (chunks : List String) :
    ((∀ j (hj : j < chunks.length), synth j chunks[j] = none) →
      generate_audiobook_model synth chunks
        = Except.error "No audio chunks were generated successfully") ∧
    (∀ j (hj : j < chunks.length) (a : α), synth j chunks[j] = some a →
      generate_audiobook_model synth chunks = Except.ok (synthLoop synth 0 chunks) ∧
        a ∈ synthLoop synth 0 chunks) := by
  constructor
  · intro h
    have hnil : synthLoop synth 0 chunks = [] := by
      apply synthLoop_all_none
      intro j hj
      have := h j hj
      simpa using this
    rw [generate_audiobook_model, hnil]
    rfl
  · intro j hj a hs
    have hmem : a ∈ synthLoop synth 0 chunks := by
      apply synthLoop_mem synth chunks 0 j hj a
      simpa using hs
    have hne : synthLoop synth 0 chunks ≠ [] := by
      intro hx
      rw [hx] at hmem
      cases hmem
    have hf : (synthLoop synth 0 chunks).isEmpty = false := by
      cases hx : synthLoop synth 0 chunks with
      | nil => exact absurd hx hne
      | cons b bs => rfl
    rw [generate_audiobook_model, hf]
    exact ⟨rfl, hmem⟩

/-- Witness for `c9_failed_chunks_skipped_total_failure_raises`: with two
chunks where the first fails and the second succeeds, the run returns ok and
contains the second chunk's audio; with a synthesizer that always fails, the
run errors out. -/
theorem c9_failed_chunks_skipped_total_failure_raises_witness :
    (generate_audiobook_model
        (fun i _ => if i = 0 then (none : Option Nat) else some 7) ["a", "b"]
      = Except.ok (synthLoop (fun i _ => if i = 0 then (none : Option Nat) else some 7) 0 ["a", "b"]) ∧
      7 ∈ synthLoop (fun i _ => if i = 0 then (none : Option Nat) else some 7) 0 ["a", "b"]) ∧
    generate_audiobook_model (fun _ _ => (none : Option Nat)) ["a", "b"]
      = Except.error "No audio chunks were generated successfully" :=
  ⟨(c9_failed_chunks_skipped_total_failure_raises
      (fun i _ => if i = 0 then (none : Option Nat) else some 7) ["a", "b"]).2
    1 (by decide) 7 (by decide),
  (c9_failed_chunks_skipped_total_failure_raises
      (fun _ _ => (none : Option Nat)) ["a", "b"]).1 (fun j hj => rfl)⟩

/-- C1 (code evaluated at the failing input): the abbreviation table is
applied in insertion order, so the single-word key `JSON` fires before the
compound key `JSON-RPC`; on `"Use the API via JSON-RPC."` the compound
expansion is lost — the output is `"Use the A P I via Jason-RPC."`, which does
not contain `"Jason R P C"`. -/
theorem c1_json_rpc_expansion_lost :
    expandAbbreviations "Use the API via JSON-RPC." = "Use the A P I via Jason-RPC."
      ∧ containsSub "Jason R P C".data
          (expandAbbreviations "Use the API via JSON-RPC.").data = false
      ∧ containsSub "Jason-RPC".data
          (expandAbbreviations "Use the API via JSON-RPC.").data = true := by
  decide

/-- C7 (counterexample): the normalizer is not idempotent — stripping one
list marker can expose another, so a second pass rewrites the output of the
first. -/
theorem c7_normalize_not_idempotent :
    markdown_to_text "- - item" = "- item" ∧
      markdown_to_text (markdown_to_text "- - item") = "item" ∧
      markdown_to_text (markdown_to_text "- - item") ≠ markdown_to_text "- - item" := by
  decide

/-- C7 (amended): on inputs without stacked or nested markers — such as the
specification's scenario input — a second application of the normalizer
leaves the first pass's output unchanged. -/
theorem c7_normalize_idempotent_on_scenario :
    markdown_to_text (markdown_to_text
        "# Title\n\nSome **bold** text with `code` and a [link](http://x.com).")
      = markdown_to_text
        "# Title\n\nSome **bold** text with `code` and a [link](http://x.com)." := by
  decide

/-- C8 (code evaluated at the failing input): because `re.escape(abbr)` ends
with a literal `.` for the dotted abbreviations, the trailing `\b` requires a
word character immediately after the period, so `"e.g."` followed by a space
is never expanded; word-boundary matching does work for plain keys such as
`API`, which stay untouched inside a larger identifier. -/
theorem c8_dotted_abbreviations_not_expanded :
    expandAbbreviations "see e.g. the docs" = "see e.g. the docs"
      ∧ expandAbbreviations "an API here" = "an A P I here"
      ∧ expandAbbreviations "use APIKey2 now" = "use APIKey2 now" := by
  decide

/-- C10: a paragraph longer than `max_length` does not flush the running
buffer first: its leading sentence is joined onto the buffered previous
paragraph with a single space, so one chunk spans the paragraph boundary and
the `"\n\n"` break between the paragraphs is not preserved inside it. -/
theorem c10_chunk_spans_paragraph_boundary :
    chunk_text "Hi.\n\nThis sentence is long. Tail." 26
        = ["Hi. This sentence is long.", "Tail."]
      ∧ ("Hi. This sentence is long." : String)
          = "Hi." ++ " " ++ "This sentence is long."
      ∧ containsSub "\n\n".data "Hi. This sentence is long.".data = false := by
  decide

end MCP
